import Mathlib

/-!
Verification of the cozy-apps-registry core against its specification.

Go strings are modelled as `List Char` (the sources only manipulate ASCII
bytes).  Fallible Go code is modelled with `Option`/`Except`; a Go runtime
panic (out-of-range index) is modelled as `none` or a dedicated outcome
constructor.  Machine integers stay well below 2^63 here, so `Nat`/`Int`
are used directly.
-/

abbrev Str := List Char

def str (s : String) : Str := s.toList

/-! ## Channel model (registry.go) -/

inductive Channel
  | Stable
  | Beta
  | Dev
deriving DecidableEq, Repr

/-! ## Go string helpers

`splitOnce sep s` models one step of `strings.SplitN`: it returns the part
before the first occurrence of `sep` and the rest, or `none` when `sep`
does not occur (in which case `SplitN` yields a single part). -/

def splitOnce (sep : Char) : Str → Option (Str × Str)
  | [] => none
  | c :: rest =>
    if c = sep then some ([], rest)
    else (splitOnce sep rest).map (fun p => (c :: p.1, p.2))

/-- Model of `strings.Index s sub` as `strIndex sub s`: the first index at which
`sub` occurs in `s`, `none` standing for Go's `-1`. -/
def strIndex (sub : Str) : Str → Option Nat
  | [] => if sub.isEmpty then some 0 else none
  | c :: rest =>
    if sub.isPrefixOf (c :: rest) then some 0
    else (strIndex sub rest).map (· + 1)

/-- Model of `strings.Contains s sub`, which is `strings.Index s sub >= 0`. -/
def strContains (s sub : Str) : Bool := (strIndex sub s).isSome

/-- Go byte-wise lexicographic string comparison `s1 < s2`. -/
def strLt : Str → Str → Bool
  | [], [] => false
  | [], _ :: _ => true
  | _ :: _, [] => false
  | a :: xs, b :: ys =>
    if a.toNat < b.toNat then true
    else if a.toNat = b.toNat then strLt xs ys
    else false

/-! ## GetVersionChannel and SplitVersion (registry.go lines 653-675)

`SplitVersion` indexes `s[0] s[1] s[2]` into the result of
`strings.SplitN(version, ".", 3)`; when the (possibly truncated) string has
fewer than two dots this is an out-of-range panic, modelled as `none`. -/

def devSuffix : Str := str "-dev."

def betaSuffix : Str := str "-beta."

def getVersionChannel (version : Str) : Channel :=
  if strContains version devSuffix then .Dev
  else if strContains version betaSuffix then .Beta
  else .Stable

def splitVersion (version : Str) : Option (Str × Str × Str) :=
  let version' :=
    match getVersionChannel version with
    | .Beta =>
      match strIndex betaSuffix version with
      | some i => version.take i
      | none => version
    | .Dev =>
      match strIndex devSuffix version with
      | some i => version.take i
      | none => version
    | .Stable => version
  match splitOnce '.' version' with
  | none => none
  | some (a, rest) =>
    match splitOnce '.' rest with
    | none => none
    | some (b, c) => some (a, b, c)

/-- Model of `VersionMatch` (registry.go lines 632-636); `none` models the
out-of-range panic inside `SplitVersion`. -/
def versionMatch (ver1 ver2 : Str) : Option Bool :=
  match splitVersion ver1, splitVersion ver2 with
  | some (a1, b1, c1), some (a2, b2, c2) =>
    some (a1 == a2 && b1 == b2 && c1 == c2)
  | _, _ => none

/-- Model of `VersionLess` (registry.go lines 638-651).  The three components are
compared with Go's `<` on `string`, i.e. byte-wise lexicographically. -/
def versionLess (ver1 ver2 : Str) : Option Bool :=
  match splitVersion ver1, splitVersion ver2 with
  | some (a1, b1, c1), some (a2, b2, c2) =>
    some (if strLt a1 a2 then true
          else if a1 == a2 && strLt b1 b2 then true
          else if a1 == a2 && b1 == b2 && strLt c1 c2 then true
          else false)
  | _, _ => none

/-! ## The version regular expression (registry.go line 34)

`^(0|[1-9][0-9]{0,4})\.(0|[1-9][0-9]{0,4})\.(0|[1-9][0-9]{0,4})
  (-dev\.[a-f0-9]{1,40}|-beta.(0|[1-9][0-9]{0,4}))?$`

Note the dot right after `-beta` is NOT escaped in the source, so it
matches any character except a newline.  The matcher below is a direct
transcription: the three numeric components are delimited by the literal
dots (a numeric component cannot contain a dot, so the component is
exactly the text up to the next separator), and the optional suffix starts
at the first non-digit of the third run. -/

def isDigitCh (c : Char) : Bool := '0'.toNat ≤ c.toNat && c.toNat ≤ '9'.toNat

def isHexCh (c : Char) : Bool :=
  isDigitCh c || ('a'.toNat ≤ c.toNat && c.toNat ≤ 'f'.toNat)

/-- whole-string match of `(0|[1-9][0-9]{0,4})`: either the single
character `0`, or a leading `1`-`9` followed by up to four digits. -/
def numOK : Str → Bool
  | [] => false
  | c :: rest =>
    if c = '0' then rest.isEmpty
    else ('1'.toNat ≤ c.toNat && c.toNat ≤ '9'.toNat) &&
      rest.all isDigitCh && rest.length ≤ 4

/-- whole-string match of `(-dev\.[a-f0-9]{1,40}|-beta.(0|[1-9][0-9]{0,4}))?`,
with the unescaped dot of the source regex: any character but `'\n'` may
follow `-beta`. -/
def suffixOK : Str → Bool
  | [] => true
  | '-' :: 'd' :: 'e' :: 'v' :: '.' :: h =>
    !h.isEmpty && h.length ≤ 40 && h.all isHexCh
  | '-' :: 'b' :: 'e' :: 't' :: 'a' :: x :: n => x != '\n' && numOK n
  | _ => false

/-- Model of `validVersionReg.MatchString` (registry.go line 34, used by
finders.go line 122). -/
def validVersion (s : Str) : Bool :=
  match splitOnce '.' s with
  | none => false
  | some (a, rest) =>
    match splitOnce '.' rest with
    | none => false
    | some (b, rest2) =>
      let c := rest2.takeWhile isDigitCh
      let suffix := rest2.dropWhile isDigitCh
      numOK a && numOK b && numOK c && suffixOK suffix

/-- The version grammar as the specification words it (spec §4.1): the beta
suffix is exactly the literal `-beta.` followed by a number.  This second
definition exists only to be compared against `validVersion`, the one
transcribed from the source regex. -/
def specSuffixOK : Str → Bool
  | [] => true
  | '-' :: 'd' :: 'e' :: 'v' :: '.' :: h =>
    !h.isEmpty && h.length ≤ 40 && h.all isHexCh
  | '-' :: 'b' :: 'e' :: 't' :: 'a' :: '.' :: n => numOK n
  | _ => false

def specValidVersion (s : Str) : Bool :=
  match splitOnce '.' s with
  | none => false
  | some (a, rest) =>
    match splitOnce '.' rest with
    | none => false
    | some (b, rest2) =>
      let c := rest2.takeWhile isDigitCh
      let suffix := rest2.dropWhile isDigitCh
      numOK a && numOK b && numOK c && specSuffixOK suffix

/-! ## Numeric interpretation of a version (spec §4.1: triples compared
as numbers) -/

def digitsToNat (s : Str) : Nat :=
  s.foldl (fun n c => 10 * n + (c.toNat - '0'.toNat)) 0

def numericTriple (s : Str) : Option (Nat × Nat × Nat) :=
  (splitVersion s).map (fun t => (digitsToNat t.1, digitsToNat t.2.1, digitsToNat t.2.2))

/-- strict lexicographic order on numeric triples (the order the spec
prescribes for `less`). -/
def tripleLessNum (a b : Nat × Nat × Nat) : Prop :=
  a.1 < b.1 ∨ (a.1 = b.1 ∧ (a.2.1 < b.2.1 ∨ (a.2.1 = b.2.1 ∧ a.2.2 < b.2.2)))

instance (a b : Nat × Nat × Nat) : Decidable (tripleLessNum a b) := by
  unfold tripleLessNum; infer_instance

/-! ## downloadVersion (registry.go lines 428-630)

The network fetch, gzip framing, tar decoding and SHA-256 arithmetic are
abstracted by what the modelled code observes of the stream:

* `entries` are the tar entries the reader yields from the size-limited
  stream (`io.LimitReader` caps the read at `maxApplicationSize` bytes,
  line 456), with their type flag, name and byte content.
* `tarEnd` is how the iteration ends once those entries are exhausted:
  `eof` models `io.EOF` (a complete archive — Go's tar reader also
  returns `io.EOF` when the limiter cuts the stream exactly at an entry
  boundary), `unexpectedEof` models `io.ErrUnexpectedEOF` (the limiter
  cut the stream mid-entry), mapped to the "file is too big" error at
  lines 490-494, and `otherErr` any other read error (lines 495-499).
  Whether an over-cap body ends in `eof` or `unexpectedEof` depends on
  where the 20 MiB cut falls; the code itself never sees the body size.
* `written` is `counter.Written()`, the number of bytes that flowed
  through the limited tee (line 626 stores it as the Version size).
* `computedSha` is the digest `h.Sum(nil)` of those bytes.
* `jsonParse` abstracts `json.Unmarshal` into `map[string]interface{}`
  together with the three `.(string)` assertions on `editor`, `slug` and
  `version` (a field is `none` when absent or not a string).
* `packParse` abstracts `json.Unmarshal` of `package.json` into
  `struct { Version string }` (`none` = invalid JSON, and an absent field
  yields `some []`).

Every error constructor corresponds to an `errshttp.NewError` with status
422 Unprocessable in the source. -/

def maxApplicationSize : Nat := 20 * 1024 * 1024

inductive TypeFlag
  | Reg
  | Dir
  | Other
deriving DecidableEq, Repr

structure TarEntry where
  typeflag : TypeFlag
  name : Str
  content : Str
deriving DecidableEq, Repr

structure VersionOptions where
  version : Str
  url : Str
  sha256 : Str
deriving DecidableEq, Repr

/-- the three string fields read out of the manifest JSON object. -/
structure Manifest where
  editor : Option Str
  slug : Option Str
  version : Option Str
deriving DecidableEq, Repr

structure Version where
  id : Str
  rev : Str
  slug : Str
  editor : Str
  type : Str
  version : Str
  manifest : Str
  url : Str
  size : Nat
  sha256 : Str
  tarPrefix : Str
deriving DecidableEq, Repr

/-- how the tar iteration over the (possibly size-capped) stream ends
after the last complete entry. -/
inductive TarEnd
  | eof
  | unexpectedEof
  | otherErr
deriving DecidableEq, Repr

inductive DLErr
  | fileTooBig
  | readErr
  | packageJsonInvalid
  | checksumMismatch
  | noManifest
  | manifestNotJson
  | manifestMismatch
deriving DecidableEq, Repr

inductive DLOutcome
  | ok (v : Version)
  | err (e : DLErr)
  | panics
deriving DecidableEq, Repr

def DLOutcome.isErr : DLOutcome → Bool
  | .err _ => true
  | _ => false

def getAppID (slug : Str) : Str := slug.map Char.toLower

def getVersionID (slug version : Str) : Str := getAppID slug ++ '-' :: version

/-- Model of `hex.DecodeString` with its error ignored, as at registry.go line 550:
the bytes decoded before the first invalid character (or odd tail) are
kept. -/
def hexDigitVal (c : Char) : Option Nat :=
  if '0'.toNat ≤ c.toNat ∧ c.toNat ≤ '9'.toNat then some (c.toNat - '0'.toNat)
  else if 'a'.toNat ≤ c.toNat ∧ c.toNat ≤ 'f'.toNat then some (c.toNat - 'a'.toNat + 10)
  else if 'A'.toNat ≤ c.toNat ∧ c.toNat ≤ 'F'.toNat then some (c.toNat - 'A'.toNat + 10)
  else none

def hexDecode : Str → List Nat
  | a :: b :: rest =>
    match hexDigitVal a, hexDigitVal b with
    | some x, some y => (16 * x + y) :: hexDecode rest
    | _, _ => []
  | _ => []

/-- scan state of the tar loop (registry.go lines 480-548). -/
structure ScanState where
  packVersion : Str
  appType : Str
  tarPrefix : Str
  manifestContent : Str
deriving DecidableEq, Repr

def initScan : ScanState := ⟨[], [], [], []⟩

def relevantEntry (e : TarEntry) : Bool :=
  e.typeflag == .Reg || e.typeflag == .Dir

/-- the stripped (logical) name of an entry: `split[1]` when
`strings.SplitN(name, "/", 2)` yields two parts, the name itself
otherwise (registry.go lines 507, 513). -/
def strippedName (e : TarEntry) : Str :=
  match splitOnce '/' e.name with
  | some (_, tail) => tail
  | none => e.name

/-- prefix tracking and top-segment stripping for one relevant entry
(registry.go lines 505-528): returns the state with `tarPrefix`,
`appType` and `manifestContent` updated, together with the stripped
name used for the `package.json` test. -/
def scanEntry (e : TarEntry) (st : ScanState) : ScanState × Str :=
  let st1 : ScanState :=
    match splitOnce '/' e.name with
    | some (top, _) =>
      { st with tarPrefix :=
          if st.tarPrefix = [] then top
          else if st.tarPrefix ≠ top then [] else st.tarPrefix }
    | none => st
  let name := strippedName e
  if name = str "manifest.webapp" then
    ({ st1 with appType := str "webapp", manifestContent := e.content }, name)
  else if name = str "manifest.konnector" then
    ({ st1 with appType := str "konnector", manifestContent := e.content }, name)
  else (st1, name)

/-- the tar loop, entry by entry.  Non-regular, non-directory entries are
skipped (registry.go line 501); a `package.json` entry whose content is
not valid JSON aborts the loop. -/
def processEntries (packParse : Str → Option Str) :
    List TarEntry → ScanState → Except DLErr ScanState
  | [], st => .ok st
  | e :: rest, st =>
    if relevantEntry e then
      let p := scanEntry e st
      if p.2 = str "package.json" then
        match packParse e.content with
        | none => .error .packageJsonInvalid
        | some v => processEntries packParse rest { p.1 with packVersion := v }
      else processEntries packParse rest p.1
    else
      processEntries packParse rest st

/-- outcome flags of the `errm` accumulation block (registry.go lines
570-610).  `none` models the panic that `VersionMatch` can raise via
`SplitVersion`.  Note line 600: for a non-Dev `opts.Version` the
package.json version is compared with `!=`, exactly as in the source. -/
structure ReconcileFlags where
  editorEmpty : Bool
  slugEmpty : Bool
  versionBad : Bool
  packBad : Bool
deriving DecidableEq, Repr

def reconcile (optsVersion : Str) (m : Manifest) (packVersion : Str) :
    Option ReconcileFlags := do
  let editorEmpty :=
    match m.editor with
    | none => true
    | some e => e == []
  let slugEmpty :=
    match m.slug with
    | none => true
    | some s => s == []
  let versionOk ←
    match m.version with
    | none => pure false
    | some v =>
      if getVersionChannel optsVersion ≠ .Dev then pure (optsVersion == v)
      else versionMatch optsVersion v
  let packOk ←
    if packVersion == [] then pure true
    else if getVersionChannel optsVersion ≠ .Dev then
      pure (optsVersion != packVersion)
    else versionMatch optsVersion packVersion
  pure ⟨editorEmpty, slugEmpty, !versionOk, !packOk⟩

def ReconcileFlags.anyBad (f : ReconcileFlags) : Bool :=
  f.editorEmpty || f.slugEmpty || f.versionBad || f.packBad

def downloadVersion (jsonParse : Str → Option Manifest)
    (packParse : Str → Option Str) (opts : VersionOptions)
    (entries : List TarEntry) (tarEnd : TarEnd) (written : Nat)
    (computedSha : List Nat) : DLOutcome :=
  match processEntries packParse entries initScan with
  | .error e => .err e
  | .ok st =>
    match tarEnd with
    | .unexpectedEof => .err .fileTooBig
    | .otherErr => .err .readErr
    | .eof =>
      if hexDecode opts.sha256 ≠ computedSha then .err .checksumMismatch
      else if st.manifestContent = [] then .err .noManifest
      else
        match jsonParse st.manifestContent with
        | none => .err .manifestNotJson
        | some m =>
          match reconcile opts.version m st.packVersion with
          | none => .panics
          | some flags =>
            if flags.anyBad then .err .manifestMismatch
            else
              .ok { id := getVersionID (m.slug.getD []) opts.version
                    rev := []
                    slug := m.slug.getD []
                    editor := m.editor.getD []
                    type := st.appType
                    version := opts.version
                    manifest := st.manifestContent
                    url := opts.url
                    size := written
                    sha256 := opts.sha256
                    tarPrefix := st.tarPrefix }

/-! standalone recomputation of the common-prefix fold, used to state what
`tar_prefix` is (registry.go lines 505-514). -/

/-- the top directory of an `a/b`-style entry, `none` for skipped entries
and names without a slash. -/
def entryTop (e : TarEntry) : Option Str :=
  if relevantEntry e then (splitOnce '/' e.name).map Prod.fst else none

def tarPrefixStep (pre : Str) (e : TarEntry) : Str :=
  match entryTop e with
  | some top => if pre = [] then top else if pre ≠ top then [] else pre
  | none => pre

def tarPrefixFold (entries : List TarEntry) : Str :=
  entries.foldl tarPrefixStep []

def isManifestEntry (e : TarEntry) : Bool :=
  relevantEntry e &&
    (strippedName e == str "manifest.webapp" ||
     strippedName e == str "manifest.konnector")

/-! ## FindAppVersions result shaping (finders.go lines 221-289)

The view query is abstracted by its outputs: `totalRows` models
`rows.TotalRows()` and `viewVersions` the version strings scanned from the
fetched rows.  Line 243 allocates `make([]string, int(rows.TotalRows()))`
and then appends the scanned rows, so the slice starts with `totalRows`
empty strings.  In the Dev arm the switch reads
`case Stable: stable = append(...); fallthrough; default: beta = append(...)`,
so every element (stable, beta or dev) is appended to `beta`. -/

structure AppVersions where
  stable : List Str
  beta : List Str
  dev : List Str
deriving DecidableEq, Repr

def findAppVersionsRaw (channel : Channel) (totalRows : Nat)
    (viewVersions : List Str) : AppVersions :=
  let allVersions := List.replicate totalRows ([] : Str) ++ viewVersions
  match channel with
  | .Stable => { stable := allVersions, beta := [], dev := [] }
  | .Beta =>
    let stable := allVersions.foldl
      (fun acc v => if getVersionChannel v == .Stable then acc ++ [v] else acc) []
    { stable := stable, beta := allVersions, dev := [] }
  | .Dev =>
    let pair := allVersions.foldl
      (fun (p : List Str × List Str) v =>
        match getVersionChannel v with
        | .Stable => (p.1 ++ [v], p.2 ++ [v])
        | _ => (p.1, p.2 ++ [v]))
      ([], [])
    { stable := pair.1, beta := pair.2, dev := allVersions }

/-! ## FindLatestVersion and its cache (finders.go lines 175-219)

A stored version document is modelled with its internal CouchDB fields and
a representative payload.  JSON (de)serialization is the identity of this
model, so the raw bytes cached at line 217 are the unstripped document.
On a cache hit (lines 183-188) the raw data is unmarshalled and returned
directly; the `ID`/`Rev`/`Attachments` clearing of lines 213-215 runs only
on the fresh-read path. -/

structure StoredVersion where
  id : Str
  rev : Str
  attachments : List Str
  slug : Str
  version : Str
deriving DecidableEq, Repr

def stripInternal (v : StoredVersion) : StoredVersion :=
  { v with id := [], rev := [], attachments := [] }

/-- one call of `FindLatestVersion` for a fixed key: `cache` is the cached
raw value under `appSlug + "/" + channel` (if any), `storeDoc` the
document the view query would return.  Result: the returned version and
the cache value after the call. -/
def findLatestVersion (cache : Option StoredVersion)
    (storeDoc : StoredVersion) : StoredVersion × Option StoredVersion :=
  match cache with
  | some data => (data, some data)
  | none => (stripInternal storeDoc, some storeDoc)

/-! ## The LRU + TTL cache (lru/lru.go)

`list.List` plus the `map[Key]*list.Element` kept in sync with it are
modelled as one front-is-MRU list of entries; `time.Time` as a `Nat`
instant passed to each operation; `sync.Mutex` as a `locked` flag.
`Lock()` on a mutex already held by the same goroutine blocks forever, so
an operation that relocks is modelled as `none` (it never returns).  Note
`Add` (line 71) calls the exported `RemoveOldest`, which takes the mutex
`Add` is still holding. -/

structure LruEntry where
  key : Str
  value : Str
  date : Nat
deriving DecidableEq, Repr

structure LruCache where
  maxEntries : Nat
  ttl : Nat
  ll : List LruEntry
  locked : Bool
deriving DecidableEq, Repr

def lruNew (maxEntries ttl : Nat) : LruCache :=
  { maxEntries := maxEntries, ttl := ttl, ll := [], locked := false }

def mutexLock (c : LruCache) : Option LruCache :=
  if c.locked then none else some { c with locked := true }

def mutexUnlock (c : LruCache) : LruCache := { c with locked := false }

/-- Model of `RemoveOldest` (lru.go lines 101-107): takes the mutex, drops the
back of the list. -/
def lruRemoveOldest (c : LruCache) : Option LruCache :=
  match mutexLock c with
  | none => none
  | some c1 => some (mutexUnlock { c1 with ll := c1.ll.dropLast })

/-- Model of `Add` (lru.go lines 60-74). -/
def lruAdd (c : LruCache) (k v : Str) (now : Nat) : Option LruCache :=
  match mutexLock c with
  | none => none
  | some c1 =>
    if c1.ll.any (fun e => e.key == k) then
      some (mutexUnlock
        { c1 with ll := ⟨k, v, now⟩ :: c1.ll.filter (fun e => e.key ≠ k) })
    else
      let c2 := { c1 with ll := ⟨k, v, now⟩ :: c1.ll }
      if c2.maxEntries ≠ 0 ∧ c2.ll.length > c2.maxEntries then
        (lruRemoveOldest c2).map mutexUnlock
      else some (mutexUnlock c2)

/-- Model of `Get` (lru.go lines 77-89): a hit within the TTL refreshes the entry and
moves it to the front; an expired entry is removed and reported as a
miss. -/
def lruGet (c : LruCache) (k : Str) (now : Nat) :
    Option (Option Str × LruCache) :=
  match mutexLock c with
  | none => none
  | some c1 =>
    match c1.ll.find? (fun e => e.key == k) with
    | some e =>
      if c1.ttl = 0 ∨ now - e.date ≤ c1.ttl then
        some (some e.value, mutexUnlock
          { c1 with ll := ⟨e.key, e.value, now⟩ :: c1.ll.filter (fun x => x.key ≠ k) })
      else
        some (none, mutexUnlock { c1 with ll := c1.ll.filter (fun x => x.key ≠ k) })
    | none => some (none, mutexUnlock c1)

/-! ## GetAppsList pagination (finders.go lines 326-421)

The store query is abstracted as the full ordered row list the selector
and sort produce; `skip=cursor` and the fetch `limit` become `drop`/`take`.
Only document ids matter to the stated claim, so a row is its id.  The
enrichment loop (lines 407-418) does not change which documents or cursor
are returned and is omitted. -/

def maxLimit : Nat := 200

/-- the `apps-index-*` design documents installed by `InitDBClient`
(registry.go lines 72-79); `designsCount = len(appsIndexes)`. -/
def appsIndexes : List Str :=
  [str "by-slug", str "by-type", str "by-editor", str "by-category",
   str "by-created_at", str "by-updated_at"]

def isDesignDoc (id : Str) : Bool := (str "_design").isPrefixOf id

def getAppsList (db : List Str) (limit0 : Nat) (cursor0 : Nat) :
    Int × List Str :=
  let limit := if limit0 = 0 then 50 else if limit0 > maxLimit then maxLimit else limit0
  let fetchLimit := limit + appsIndexes.length + 1
  let rows := (db.drop cursor0).take fetchLimit
  let res := rows.filter (fun id => !isDesignDoc id)
  if res.length = 0 then (-1, res)
  else if res.length > limit then
    (((cursor0 : Int) + (res.take limit).length : Int), res.take limit)
  else (-1, res)

def DLOutcome.isOk : DLOutcome → Bool
  | .ok _ => true
  | _ => false

/-! ## Concrete publication inputs used by the evaluation theorems -/

def zeroSha : Str :=
  str "0000000000000000000000000000000000000000000000000000000000000000"

def zeroDigest : List Nat := List.replicate 32 0

/-- a manifest JSON whose `editor`, `slug`, `version` string fields are
`"cozy"`, `"app"`, `"1.0.0"`. -/
def manifestParse1 : Str → Option Manifest := fun _ =>
  some ⟨some (str "cozy"), some (str "app"), some (str "1.0.0")⟩

def opts1 : VersionOptions :=
  ⟨str "1.0.0", str "http://example.com/app.tar.gz", zeroSha⟩

def entriesApp : List TarEntry :=
  [⟨.Reg, str "app/manifest.webapp", str "MANIFEST"⟩,
   ⟨.Reg, str "app/package.json", str "PKG"⟩]

def storedDoc1 : StoredVersion :=
  ⟨str "app-1.0.0", str "1-abc", [str "icon.png"], str "app", str "1.0.0"⟩

def lruC1 : LruCache :=
  { maxEntries := 1, ttl := 300, ll := [⟨str "a", str "x", 0⟩], locked := false }

/-! ## C3: the tar_prefix of an accepted archive -/

def entriesNoCommonTop : List TarEntry :=
  [⟨.Reg, str "a/manifest.webapp", str "MANIFEST"⟩,
   ⟨.Reg, str "b/f", []⟩,
   ⟨.Reg, str "c/f", []⟩]

def versionC3 : Version :=
  { id := str "app-1.0.0", rev := [], slug := str "app",
    editor := str "cozy", type := str "webapp", version := str "1.0.0",
    manifest := str "MANIFEST", url := str "http://example.com/app.tar.gz",
    size := 100, sha256 := zeroSha, tarPrefix := str "c" }

def entriesShared : List TarEntry :=
  [⟨.Reg, str "app/manifest.webapp", str "MANIFEST"⟩,
   ⟨.Reg, str "app/index.html", []⟩]

def versionShared : Version :=
  { id := str "app-1.0.0", rev := [], slug := str "app",
    editor := str "cozy", type := str "webapp", version := str "1.0.0",
    manifest := str "MANIFEST", url := str "http://example.com/app.tar.gz",
    size := 100, sha256 := zeroSha, tarPrefix := str "app" }

def versionOversize : Version :=
  { id := str "app-1.0.0", rev := [], slug := str "app",
    editor := str "cozy", type := str "webapp", version := str "1.0.0",
    manifest := str "MANIFEST", url := str "http://example.com/app.tar.gz",
    size := maxApplicationSize, sha256 := zeroSha, tarPrefix := str "app" }

def dbSample : List Str :=
  [str "_design/apps-index-by-slug", str "alpha", str "bravo"]

/-! ## Theorems -/

example : validVersion (str "1.2.3") = true := by decide

example : validVersion (str "1.2.3-beta.2") = true := by decide

example : validVersion (str "1.2.3-betaX0") = true := by decide

example : validVersion (str "1.2.3-dev.abc123") = true := by decide

example : validVersion (str "1.2") = false := by decide

example : validVersion (str "01.2.3") = false := by decide

example : validVersion (str "123456.2.3") = false := by decide

example : specValidVersion (str "1.2.3-betaX0") = false := by decide

example : splitVersion (str "1.2") = none := by decide

example : splitVersion (str "1.2.3-beta.2") = some (str "1", str "2", str "3") := by decide

example : getVersionChannel (str "1.2.3-dev.ab") = .Dev := by decide

example : versionLess (str "10.0.0") (str "9.0.0") = some true := by decide

example :
    findAppVersionsRaw .Dev 1 [str "1.0.0-dev.aaa"] =
      { stable := [[]],
        beta := [[], str "1.0.0-dev.aaa"],
        dev := [[], str "1.0.0-dev.aaa"] } := by decide

example :
    lruAdd (lruNew 1 300) (str "a") (str "x") 0 =
      some { maxEntries := 1, ttl := 300, ll := [⟨str "a", str "x", 0⟩], locked := false } := by
  decide

example :
    (lruAdd (lruNew 1 300) (str "a") (str "x") 0).bind
      (fun c1 => lruAdd c1 (str "b") (str "y") 1) = none := by decide

example : getAppsList [str "_design/a", str "x", str "y"] 1 0 =
    (1, [str "x"]) := by decide

example : getAppsList [str "_design/a", str "x", str "y"] 2 0 =
    (-1, [str "x", str "y"]) := by decide

/-- C1: refuted on the code (code bug).  With a non-Dev `opts.Version`,
registry.go line 600 sets `match = opts.Version != packVersion`, so a
`package.json` version equal to `opts.Version` raises the "version from
package.json" violation while a different one passes.  Here
`opts1.version = "1.0.0"`: a `package.json` version `"2.0.0"` is accepted
and `"1.0.0"` is rejected — the exact inversion of the claim. -/
theorem packageJsonCheckInverted :
    (downloadVersion manifestParse1 (fun _ => some (str "2.0.0")) opts1
        entriesApp .eof 100 zeroDigest).isOk = true ∧
    downloadVersion manifestParse1 (fun _ => some (str "1.0.0")) opts1
        entriesApp .eof 100 zeroDigest = .err .manifestMismatch := by
  constructor
  · decide
  · decide

/-- C2: refuted on the code (code bug).  For a Dev-channel request whose
view yields the single dev version `"1.0.0-dev.aaa"` (with
`TotalRows() = 1`), the code returns `dev` and `beta` both equal to
`["", "1.0.0-dev.aaa"]` and `stable = [""]`: the `make([]string, TotalRows)`
padding puts an empty string in every list, and the
`fallthrough`/`default` switch puts the dev version into `beta`. -/
theorem findAppVersionsDevArmEval :
    findAppVersionsRaw .Dev 1 [str "1.0.0-dev.aaa"] =
      { stable := [[]],
        beta := [[], str "1.0.0-dev.aaa"],
        dev := [[], str "1.0.0-dev.aaa"] } ∧
    getVersionChannel (str "1.0.0-dev.aaa") = .Dev := by
  constructor
  · decide
  · decide

/-- C4: refuted on the code (code bug).  `VersionLess` compares the split
components with Go string `<`, so `"10" < "9"` holds byte-wise and
`VersionLess("10.0.0", "9.0.0") = true`, although the numeric triple
(10,0,0) does not precede (9,0,0). -/
theorem versionLessComparesStrings :
    validVersion (str "10.0.0") = true ∧
    validVersion (str "9.0.0") = true ∧
    versionLess (str "10.0.0") (str "9.0.0") = some true ∧
    numericTriple (str "10.0.0") = some (10, 0, 0) ∧
    numericTriple (str "9.0.0") = some (9, 0, 0) ∧
    ¬ tripleLessNum (10, 0, 0) (9, 0, 0) := by
  refine ⟨by decide, by decide, by decide, by decide, by decide, by decide⟩

/-- C5: refuted on the code (code bug).  The fresh read strips the
internal fields but caches the raw document; the subsequent cache hit
returns the unmarshalled raw document without stripping, so it exposes
`_id`/`_rev`/attachments and differs from the value the fresh read
returned. -/
theorem findLatestCacheHitUnstripped :
    (findLatestVersion none storedDoc1).1.id = [] ∧
    (findLatestVersion none storedDoc1).1.rev = [] ∧
    (findLatestVersion none storedDoc1).1.attachments = [] ∧
    (findLatestVersion (findLatestVersion none storedDoc1).2 storedDoc1).1.id
      = str "app-1.0.0" ∧
    (findLatestVersion (findLatestVersion none storedDoc1).2 storedDoc1).1
      ≠ (findLatestVersion none storedDoc1).1 := by
  refine ⟨by decide, by decide, by decide, by decide, by decide⟩

/-- C7: refuted on the code (code bug).  The dot of `-beta.` is not
escaped in `validVersionReg`, so `"1.2.3-betaX0"` matches the regex even
though the claimed grammar (suffix exactly `-beta.` then a number)
rejects it; `GetVersionChannel` then classifies that accepted string as
Stable, since it looks for the literal `-beta.`. -/
theorem validVersionRegUnescapedBetaDot :
    validVersion (str "1.2.3-betaX0") = true ∧
    specValidVersion (str "1.2.3-betaX0") = false ∧
    getVersionChannel (str "1.2.3-betaX0") = .Stable := by
  refine ⟨by decide, by decide, by decide⟩

/-- C8: refuted on the code (code bug).  With capacity 1 and TTL 300:
`Add` then `Get` within the TTL returns the value (and refreshes the
entry), a `Get` after the TTL removes the entry and misses — but the
N+1-th `Add` of a distinct key never returns: `Add` still holds the mutex
when it calls `RemoveOldest`, which locks the same mutex again
(lru.go lines 61, 70-71, 102). -/
theorem lruAddEvictionDeadlocks :
    lruAdd (lruNew 1 300) (str "a") (str "x") 0 = some lruC1 ∧
    lruGet lruC1 (str "a") 100 =
      some (some (str "x"),
        { lruC1 with ll := [⟨str "a", str "x", 100⟩] }) ∧
    lruGet lruC1 (str "a") 301 = some (none, { lruC1 with ll := [] }) ∧
    lruAdd lruC1 (str "b") (str "y") 1 = none := by
  refine ⟨by decide, by decide, by decide, by decide⟩

/-- C3 counterexample: an archive accepted by the validator whose three
`a/b`-style entries have the pairwise distinct tops `a`, `b`, `c`, yet
whose produced `tar_prefix` is `"c"`, not `""`: after `b` clears the
prefix, the `prefix == ""` branch records `c` again. -/
theorem tarPrefixRecordsLastTopAfterReset :
    downloadVersion manifestParse1 (fun _ => some []) opts1
        entriesNoCommonTop .eof 100 zeroDigest = .ok versionC3 ∧
    versionC3.tarPrefix = str "c" ∧
    entryTop ⟨.Reg, str "a/manifest.webapp", str "MANIFEST"⟩ = some (str "a") ∧
    entryTop ⟨.Reg, str "b/f", []⟩ = some (str "b") ∧
    entryTop ⟨.Reg, str "c/f", []⟩ = some (str "c") ∧
    (str "a" : Str) ≠ str "b" ∧ (str "c" : Str) ≠ [] := by
  refine ⟨by decide, by decide, by decide, by decide, by decide, by decide, by decide⟩

theorem scanEntry_snd_eq (e : TarEntry) (st : ScanState) :
    (scanEntry e st).2 = strippedName e := by
  unfold scanEntry
  split
  all_goals
    dsimp only
    split
    · rfl
    · split <;> rfl

theorem scanEntry_fst_tarPrefix (e : TarEntry) (st : ScanState)
    (h : relevantEntry e = true) :
    (scanEntry e st).1.tarPrefix = tarPrefixStep st.tarPrefix e := by
  unfold scanEntry tarPrefixStep entryTop
  rw [if_pos h]
  cases hsp : splitOnce '/' e.name with
  | none =>
    simp only [hsp, Option.map_none']
    split
    · rfl
    · split <;> rfl
  | some p =>
    obtain ⟨top, tail⟩ := p
    simp only [hsp, Option.map_some']
    split
    · rfl
    · split <;> rfl

theorem scanEntry_fst_packVersion (e : TarEntry) (st : ScanState) :
    (scanEntry e st).1.packVersion = st.packVersion := by
  unfold scanEntry
  split
  all_goals
    dsimp only
    split
    · rfl
    · split <;> rfl

theorem scanEntry_fst_manifestContent (e : TarEntry) (st : ScanState)
    (hm : (strippedName e == str "manifest.webapp"
           || strippedName e == str "manifest.konnector") = false) :
    (scanEntry e st).1.manifestContent = st.manifestContent := by
  simp only [Bool.or_eq_false_iff, beq_eq_false_iff_ne, ne_eq] at hm
  obtain ⟨hw, hk⟩ := hm
  unfold scanEntry
  split
  all_goals
    dsimp only
    rw [if_neg hw, if_neg hk]

theorem processEntries_ok_tarPrefix (pp : Str → Option Str) (es : List TarEntry) :
    ∀ st st' : ScanState, processEntries pp es st = .ok st' →
      st'.tarPrefix = es.foldl tarPrefixStep st.tarPrefix := by
  induction es with
  | nil =>
    intro st st' h
    simp only [processEntries] at h
    cases h
    rfl
  | cons e rest ih =>
    intro st st' h
    simp only [processEntries] at h
    by_cases hrel : relevantEntry e = true
    · rw [if_pos hrel] at h
      rw [List.foldl_cons, ← scanEntry_fst_tarPrefix e st hrel]
      by_cases hname : (scanEntry e st).2 = str "package.json"
      · rw [if_pos hname] at h
        cases hpp : pp e.content with
        | none =>
          simp only [hpp] at h
          exact absurd h (by simp)
        | some v =>
          simp only [hpp] at h
          have hrec := ih _ _ h
          exact hrec
      · rw [if_neg hname] at h
        exact ih _ _ h
    · rw [if_neg hrel] at h
      have hstep : tarPrefixStep st.tarPrefix e = st.tarPrefix := by
        unfold tarPrefixStep entryTop
        rw [Bool.not_eq_true] at hrel
        rw [hrel]
        rfl
      rw [List.foldl_cons, hstep]
      exact ih _ _ h

theorem processEntries_ok_manifestContent (pp : Str → Option Str)
    (es : List TarEntry) :
    ∀ st st' : ScanState, processEntries pp es st = .ok st' →
      (∀ e ∈ es, isManifestEntry e = false) →
      st'.manifestContent = st.manifestContent := by
  induction es with
  | nil =>
    intro st st' h _
    simp only [processEntries] at h
    cases h
    rfl
  | cons e rest ih =>
    intro st st' h hman
    have hman_e : isManifestEntry e = false := hman e (List.mem_cons_self e rest)
    have hman_rest : ∀ x ∈ rest, isManifestEntry x = false :=
      fun x hx => hman x (List.mem_cons_of_mem e hx)
    simp only [processEntries] at h
    by_cases hrel : relevantEntry e = true
    · rw [if_pos hrel] at h
      have hkeep : (scanEntry e st).1.manifestContent = st.manifestContent := by
        apply scanEntry_fst_manifestContent
        unfold isManifestEntry at hman_e
        rw [hrel] at hman_e
        simpa using hman_e
      by_cases hname : (scanEntry e st).2 = str "package.json"
      · rw [if_pos hname] at h
        cases hpp : pp e.content with
        | none =>
          simp only [hpp] at h
          exact absurd h (by simp)
        | some v =>
          simp only [hpp] at h
          have hrec := ih _ _ h hman_rest
          rw [hrec]
          exact hkeep
      · rw [if_neg hname] at h
        rw [ih _ _ h hman_rest]
        exact hkeep
    · rw [if_neg hrel] at h
      exact ih _ _ h hman_rest

theorem tarPrefixStep_eq_some (pre : Str) (e : TarEntry) (top : Str)
    (h : entryTop e = some top) :
    tarPrefixStep pre e = if pre = [] then top else if pre ≠ top then [] else pre := by
  unfold tarPrefixStep
  rw [h]

theorem tarPrefixStep_eq_none (pre : Str) (e : TarEntry)
    (h : entryTop e = none) :
    tarPrefixStep pre e = pre := by
  unfold tarPrefixStep
  rw [h]

theorem foldl_tarPrefixStep_shared (a : Str) :
    ∀ (es : List TarEntry) (pre : Str),
      (∀ e ∈ es, entryTop e = some a ∨ entryTop e = none) →
      (pre = [] ∨ pre = a) →
      ((∃ e ∈ es, entryTop e ≠ none) ∨ pre = a) →
      es.foldl tarPrefixStep pre = a := by
  intro es
  induction es with
  | nil =>
    intro pre _ _ h3
    rcases h3 with h3 | h3
    · obtain ⟨e, he, _⟩ := h3
      exact absurd he (List.not_mem_nil e)
    · exact h3
  | cons e rest ih =>
    intro pre h1 h2 h3
    rcases h1 e (List.mem_cons_self e rest) with htop | htop
    · have hstep : tarPrefixStep pre e = a := by
        rw [tarPrefixStep_eq_some pre e a htop]
        rcases h2 with h2 | h2
        · rw [if_pos h2]
        · subst h2
          by_cases hpre : pre = []
          · rw [if_pos hpre]
          · rw [if_neg hpre, if_neg (by simp)]
      rw [List.foldl_cons, hstep]
      exact ih a (fun x hx => h1 x (List.mem_cons_of_mem e hx)) (Or.inr rfl) (Or.inr rfl)
    · have hstep : tarPrefixStep pre e = pre := tarPrefixStep_eq_none pre e htop
      rw [List.foldl_cons, hstep]
      apply ih pre (fun x hx => h1 x (List.mem_cons_of_mem e hx)) h2
      rcases h3 with h3 | h3
      · obtain ⟨x, hx, hxt⟩ := h3
        rcases List.mem_cons.mp hx with hx | hx
        · subst hx
          exact absurd htop hxt
        · exact Or.inl ⟨x, hx, hxt⟩
      · exact Or.inr h3

theorem downloadVersion_ok_scan (jsonParse : Str → Option Manifest)
    (packParse : Str → Option Str) (opts : VersionOptions)
    (entries : List TarEntry) (tarEnd : TarEnd) (written : Nat)
    (computedSha : List Nat) (v : Version)
    (h : downloadVersion jsonParse packParse opts entries tarEnd written
           computedSha = .ok v) :
    ∃ st : ScanState, processEntries packParse entries initScan = .ok st ∧
      v.tarPrefix = st.tarPrefix := by
  unfold downloadVersion at h
  split at h
  · exact absurd h (by simp)
  · rename_i st hst
    refine ⟨st, hst, ?_⟩
    split at h
    · exact absurd h (by simp)
    · exact absurd h (by simp)
    · split at h
      · exact absurd h (by simp)
      · split at h
        · exact absurd h (by simp)
        · split at h
          · exact absurd h (by simp)
          · split at h
            · exact absurd h (by simp)
            · split at h
              · exact absurd h (by simp)
              · simp only [DLOutcome.ok.injEq] at h
                rw [← h]

/-- C3 (amended): for every archive accepted by the validator, the
produced Version's `tar_prefix` equals the left fold of the prefix rule
over the `a/b`-style entries (record the top when the prefix is empty,
clear it when a different top appears); in particular it equals the
common top directory whenever all `a/b`-style entries share one.  The
original claim's second clause — empty whenever there is no common top —
does not hold: after a clear, the next entry's top is recorded again. -/
theorem tarPrefixOfAccepted (jsonParse : Str → Option Manifest)
    (packParse : Str → Option Str) (opts : VersionOptions)
    (entries : List TarEntry) (tarEnd : TarEnd) (written : Nat)
    (computedSha : List Nat) (v : Version)
    (h : downloadVersion jsonParse packParse opts entries tarEnd written
           computedSha = .ok v) :
    v.tarPrefix = tarPrefixFold entries ∧
    (∀ a : Str, (∀ e ∈ entries, entryTop e = some a ∨ entryTop e = none) →
      (∃ e ∈ entries, entryTop e ≠ none) → v.tarPrefix = a) := by
  obtain ⟨st, hst, hpre⟩ :=
    downloadVersion_ok_scan jsonParse packParse opts entries tarEnd written
      computedSha v h
  have hfold : v.tarPrefix = tarPrefixFold entries := by
    rw [hpre, processEntries_ok_tarPrefix packParse entries initScan st hst]
    rfl
  refine ⟨hfold, fun a h1 h2 => ?_⟩
  rw [hfold]
  exact foldl_tarPrefixStep_shared a entries [] h1 (Or.inl rfl) (Or.inl h2)

theorem tarPrefixOfAccepted_witness :
    downloadVersion manifestParse1 (fun _ => some []) opts1 entriesShared .eof
        100 zeroDigest = .ok versionShared ∧
    versionShared.tarPrefix = str "app" :=
  ⟨by decide,
   (tarPrefixOfAccepted manifestParse1 (fun _ => some []) opts1 entriesShared
       .eof 100 zeroDigest versionShared (by decide)).2 (str "app") (by decide)
     ⟨⟨.Reg, str "app/manifest.webapp", str "MANIFEST"⟩, by decide, by decide⟩⟩

/-- C6 (amended): `downloadVersion` fails with an Unprocessable error
(and produces no Version) whenever the size-capped read cuts the tar
stream mid-entry — the tar reader's `io.ErrUnexpectedEOF`, which is how
an over-cap body generically ends — whenever the computed SHA-256 digest
differs from the hex-decoded declared `sha256`, and whenever the archive
has no `manifest.webapp` or `manifest.konnector` entry.  The original
claim's first condition — failure whenever the stream exceeds the 20 MiB
cap — does not hold of the code: the cap is enforced only through
truncation, and a truncation falling exactly at the end of a complete
archive yields a clean `io.EOF` and is accepted when the declared hash
matches the hash of the 20 MiB prefix. -/
theorem downloadVersionFailureConditions (jsonParse : Str → Option Manifest)
    (packParse : Str → Option Str) (opts : VersionOptions)
    (entries : List TarEntry) (tarEnd : TarEnd) (written : Nat)
    (computedSha : List Nat) :
    (tarEnd = .unexpectedEof →
      (downloadVersion jsonParse packParse opts entries tarEnd written
          computedSha).isErr = true) ∧
    (hexDecode opts.sha256 ≠ computedSha →
      (downloadVersion jsonParse packParse opts entries tarEnd written
          computedSha).isErr = true) ∧
    ((∀ e ∈ entries, isManifestEntry e = false) →
      (downloadVersion jsonParse packParse opts entries tarEnd written
          computedSha).isErr = true) := by
  refine ⟨fun hcut => ?_, fun hsha => ?_, fun hnoman => ?_⟩
  · unfold downloadVersion
    cases hpe : processEntries packParse entries initScan with
    | error e => simp only [hpe]; rfl
    | ok st =>
      simp only [hpe]
      rw [hcut]
      rfl
  · unfold downloadVersion
    cases hpe : processEntries packParse entries initScan with
    | error e => simp only [hpe]; rfl
    | ok st =>
      simp only [hpe]
      cases tarEnd with
      | unexpectedEof => rfl
      | otherErr => rfl
      | eof =>
        rw [if_pos hsha]
        rfl
  · unfold downloadVersion
    cases hpe : processEntries packParse entries initScan with
    | error e => simp only [hpe]; rfl
    | ok st =>
      simp only [hpe]
      have hmc : st.manifestContent = [] :=
        processEntries_ok_manifestContent packParse entries initScan st hpe hnoman
      cases tarEnd with
      | unexpectedEof => rfl
      | otherErr => rfl
      | eof =>
        by_cases hsha' : hexDecode opts.sha256 ≠ computedSha
        · rw [if_pos hsha']
          rfl
        · rw [if_neg hsha', if_pos hmc]
          rfl

theorem downloadVersionFailureConditions_witness :
    ((TarEnd.unexpectedEof : TarEnd) = .unexpectedEof ∧
      (downloadVersion manifestParse1 (fun _ => some []) opts1 entriesApp
          .unexpectedEof maxApplicationSize zeroDigest).isErr = true) ∧
    (hexDecode opts1.sha256 ≠ [1] ∧
      (downloadVersion manifestParse1 (fun _ => some []) opts1 entriesApp .eof
          100 [1]).isErr = true) ∧
    ((∀ e ∈ [TarEntry.mk .Reg (str "app/index.html") []],
        isManifestEntry e = false) ∧
      (downloadVersion manifestParse1 (fun _ => some []) opts1
          [TarEntry.mk .Reg (str "app/index.html") []] .eof 100
          zeroDigest).isErr = true) :=
  ⟨⟨rfl,
    (downloadVersionFailureConditions manifestParse1 (fun _ => some []) opts1
       entriesApp .unexpectedEof maxApplicationSize zeroDigest).1 rfl⟩,
   ⟨by decide,
    (downloadVersionFailureConditions manifestParse1 (fun _ => some []) opts1
       entriesApp .eof 100 [1]).2.1 (by decide)⟩,
   ⟨by decide,
    (downloadVersionFailureConditions manifestParse1 (fun _ => some []) opts1
       [TarEntry.mk .Reg (str "app/index.html") []] .eof 100 zeroDigest).2.2
      (by decide)⟩⟩

/-- C6 counterexample: the code does not fail on every stream over the
20 MiB cap.  The limiter truncates the body to its first 20 MiB; when the
cut falls exactly at the end of a complete archive the tar reader ends
with a clean `io.EOF`, and if the declared `sha256` equals the hash of
that 20 MiB prefix every check passes: the publication succeeds and a
Version is produced.  Here the counter consumed the full 20 MiB budget
(`written = maxApplicationSize`, so the body held at least that much and
could be arbitrarily larger), the prefix decodes to `entriesShared`, the
iteration ends with `eof`, and the outcome is `.ok`. -/
theorem oversizeBodyCanBeAccepted :
    downloadVersion manifestParse1 (fun _ => some []) opts1 entriesShared .eof
        maxApplicationSize zeroDigest = .ok versionOversize ∧
    versionOversize.size = maxApplicationSize ∧
    (downloadVersion manifestParse1 (fun _ => some []) opts1 entriesShared .eof
        maxApplicationSize zeroDigest).isErr = false := by
  refine ⟨by decide, by decide, by decide⟩

theorem filter_length_split {α : Type} (p : α → Bool) (l : List α) :
    (l.filter p).length + (l.filter (fun a => !p a)).length = l.length := by
  induction l with
  | nil => rfl
  | cons x xs ih =>
    by_cases hx : p x = true
    · simp [List.filter_cons, hx]
      omega
    · rw [Bool.not_eq_true] at hx
      simp [List.filter_cons, hx]
      omega

/-- C9: confirmed.  Provided the store holds at most `len(appsIndexes)`
design documents, `GetAppsList` returns no `_design` ids, returns at most
`limit` items (default 50 when unset, capped at 200), returns cursor `-1`
exactly when every remaining non-design document has been returned, and
otherwise returns the old cursor plus the number of returned items. -/
theorem getAppsListSpec (db : List Str) (limit0 cursor0 : Nat)
    (hdesign : (db.filter isDesignDoc).length ≤ appsIndexes.length) :
    (∀ id ∈ (getAppsList db limit0 cursor0).2, isDesignDoc id = false) ∧
    (getAppsList db limit0 cursor0).2.length ≤
      (if limit0 = 0 then 50 else if limit0 > maxLimit then maxLimit else limit0) ∧
    ((getAppsList db limit0 cursor0).1 = -1 ↔
      (getAppsList db limit0 cursor0).2
        = (db.drop cursor0).filter (fun id => !isDesignDoc id)) ∧
    ((getAppsList db limit0 cursor0).1 ≠ -1 →
      (getAppsList db limit0 cursor0).1
        = (cursor0 : Int) + (getAppsList db limit0 cursor0).2.length) := by
  set L := if limit0 = 0 then 50 else if limit0 > maxLimit then maxLimit else limit0
    with hL
  set rows := (db.drop cursor0).take (L + appsIndexes.length + 1) with hrows
  set res := rows.filter (fun id => !isDesignDoc id) with hres
  have hg : getAppsList db limit0 cursor0 =
      (if res.length = 0 then ((-1 : Int), res)
       else if res.length > L then
         (((cursor0 : Int) + (res.take L).length : Int), res.take L)
       else ((-1 : Int), res)) := rfl
  -- every member of res is a non-design id
  have hmem : ∀ id ∈ res, isDesignDoc id = false := by
    intro id hid
    have := (List.mem_filter.mp hid).2
    simpa using this
  -- res is a prefix of the filtered remainder
  have hpre : List.IsPrefix res ((db.drop cursor0).filter (fun id => !isDesignDoc id)) := by
    rw [hres, hrows]
    have htp := List.take_prefix (L + appsIndexes.length + 1) (db.drop cursor0)
    exact htp.filter _
  -- if res fits within the limit, the whole remainder was scanned
  have hfit : res.length ≤ L →
      res = (db.drop cursor0).filter (fun id => !isDesignDoc id) := by
    intro hle
    by_cases hlen : (db.drop cursor0).length ≤ L + appsIndexes.length + 1
    · rw [hres, hrows, List.take_of_length_le hlen]
    · exfalso
      push_neg at hlen
      have hrowslen : rows.length = L + appsIndexes.length + 1 := by
        rw [hrows, List.length_take]
        omega
      have hsub : List.Sublist rows db :=
        (List.take_sublist _ _).trans (List.drop_sublist _ _)
      have hdr : (rows.filter isDesignDoc).length ≤ appsIndexes.length :=
        le_trans (hsub.filter isDesignDoc).length_le hdesign
      have hsplit := filter_length_split (fun id => !isDesignDoc id) rows
      have hqq : rows.filter (fun a => !(!isDesignDoc a)) = rows.filter isDesignDoc := by
        simp only [Bool.not_not]
      rw [hqq] at hsplit
      rw [← hres] at hsplit
      omega
  -- if res overflows the limit, the truncated page is not the whole remainder
  have hover : res.length > L →
      res.take L ≠ (db.drop cursor0).filter (fun id => !isDesignDoc id) := by
    intro hgt heq
    have : res.length ≤ (res.take L).length := by
      rw [heq]
      exact hpre.length_le
    rw [List.length_take] at this
    omega
  rw [hg]
  by_cases h0 : res.length = 0
  · rw [if_pos h0]
    refine ⟨hmem, by simp [h0, ← hL], ?_, by simp⟩
    simp only [true_iff]
    exact hfit (by omega)
  · rw [if_neg h0]
    by_cases hgt : res.length > L
    · rw [if_pos hgt]
      constructor
      · intro id hid
        exact hmem id (List.take_subset _ _ hid)
      refine ⟨by simp [List.length_take], ?_, ?_⟩
      · constructor
        · intro hminus
          exfalso
          have : (0 : Int) ≤ (cursor0 : Int) + (res.take L).length := by positivity
          omega
        · intro heq
          exact absurd heq (hover hgt)
      · intro _
        rfl
    · rw [if_neg hgt]
      push_neg at hgt
      refine ⟨hmem, hgt, ?_, by simp⟩
      simp only [true_iff]
      exact hfit hgt

theorem getAppsListSpec_witness :
    ((dbSample.filter isDesignDoc).length ≤ appsIndexes.length) ∧
    ((∀ id ∈ (getAppsList dbSample 1 0).2, isDesignDoc id = false) ∧
     (getAppsList dbSample 1 0).2.length ≤
       (if (1 : Nat) = 0 then 50 else if 1 > maxLimit then maxLimit else 1) ∧
     ((getAppsList dbSample 1 0).1 = -1 ↔
       (getAppsList dbSample 1 0).2
         = (dbSample.drop 0).filter (fun id => !isDesignDoc id)) ∧
     ((getAppsList dbSample 1 0).1 ≠ -1 →
       (getAppsList dbSample 1 0).1
         = ((0 : Nat) : Int) + (getAppsList dbSample 1 0).2.length)) :=
  ⟨by decide, getAppsListSpec dbSample 1 0 (by decide)⟩

theorem splitOnce_eq (sep : Char) :
    ∀ s a r : Str, splitOnce sep s = some (a, r) → s = a ++ sep :: r := by
  intro s
  induction s with
  | nil => intro a r h; simp [splitOnce] at h
  | cons c rest ih =>
    intro a r h
    simp only [splitOnce] at h
    by_cases hc : c = sep
    · rw [if_pos hc] at h
      simp only [Option.some.injEq, Prod.mk.injEq] at h
      obtain ⟨ha, hr⟩ := h
      subst hc
      rw [← ha, ← hr]
      rfl
    · rw [if_neg hc] at h
      cases hsp : splitOnce sep rest with
      | none => rw [hsp] at h; simp at h
      | some p =>
        obtain ⟨a', r'⟩ := p
        rw [hsp] at h
        simp only [Option.map_some', Option.some.injEq, Prod.mk.injEq] at h
        obtain ⟨ha, hr⟩ := h
        rw [← ha, ← hr]
        rw [List.cons_append]
        rw [← ih a' r' hsp]

theorem splitOnce_append (sep : Char) :
    ∀ (a r : Str), (∀ c ∈ a, c ≠ sep) →
      splitOnce sep (a ++ sep :: r) = some (a, r) := by
  intro a
  induction a with
  | nil =>
    intro r _
    simp [splitOnce]
  | cons c a' ih =>
    intro r h
    have hc : c ≠ sep := h c (List.mem_cons_self c a')
    simp only [List.cons_append, splitOnce, if_neg hc, List.append_eq]
    rw [ih r (fun x hx => h x (List.mem_cons_of_mem c hx))]
    rfl

theorem numOK_all_digits (n : Str) (h : numOK n = true) :
    n.all isDigitCh = true := by
  cases n with
  | nil => simp [numOK] at h
  | cons c rest =>
    simp only [numOK] at h
    by_cases hc : c = '0'
    · rw [if_pos hc] at h
      subst hc
      rw [List.isEmpty_iff] at h
      subst h
      decide
    · rw [if_neg hc] at h
      simp only [Bool.and_eq_true, decide_eq_true_eq] at h
      obtain ⟨⟨⟨h1, h2⟩, hall⟩, _⟩ := h
      rw [List.all_cons]
      simp only [Bool.and_eq_true]
      refine ⟨?_, hall⟩
      unfold isDigitCh
      simp only [Bool.and_eq_true, decide_eq_true_eq]
      have e0 : '0'.toNat = 48 := rfl
      have e1 : '1'.toNat = 49 := rfl
      omega

theorem digitCh_ne_dot (c : Char) (h : isDigitCh c = true) : c ≠ '.' := by
  intro hc
  subst hc
  exact absurd h (by decide)

theorem digitCh_ne_dash (c : Char) (h : isDigitCh c = true) : c ≠ '-' := by
  intro hc
  subst hc
  exact absurd h (by decide)

theorem strIndex_isPrefixOf (sub : Str) :
    ∀ (s : Str) (i : Nat), strIndex sub s = some i →
      sub.isPrefixOf (s.drop i) = true := by
  intro s
  induction s with
  | nil =>
    intro i h
    simp only [strIndex] at h
    by_cases he : sub.isEmpty = true
    · rw [if_pos he] at h
      simp only [Option.some.injEq] at h
      rw [List.isEmpty_iff] at he
      subst he
      simp [List.isPrefixOf]
    · rw [if_neg he] at h
      exact absurd h (by simp)
  | cons c rest ih =>
    intro i h
    simp only [strIndex] at h
    by_cases hp : sub.isPrefixOf (c :: rest) = true
    · rw [if_pos hp] at h
      simp only [Option.some.injEq] at h
      rw [← h]
      exact hp
    · rw [if_neg hp] at h
      cases hsi : strIndex sub rest with
      | none => rw [hsi] at h; simp at h
      | some j =>
        rw [hsi] at h
        simp only [Option.map_some', Option.some.injEq] at h
        rw [← h]
        exact ih j hsi

theorem strIndex_ge (c0 : Char) (subTail pre post : Str) (i : Nat)
    (hpre : ∀ c ∈ pre, c ≠ c0)
    (h : strIndex (c0 :: subTail) (pre ++ post) = some i) :
    pre.length ≤ i := by
  by_contra hlt
  push_neg at hlt
  have hpf := strIndex_isPrefixOf (c0 :: subTail) (pre ++ post) i h
  rw [List.drop_append_of_le_length (le_of_lt hlt)] at hpf
  have hne : pre.drop i ≠ [] := by
    intro hnil
    have hlen := List.length_drop i pre
    rw [hnil] at hlen
    simp at hlen
    omega
  obtain ⟨d, t, hdt⟩ := List.exists_cons_of_ne_nil hne
  rw [hdt, List.cons_append] at hpf
  simp only [List.isPrefixOf, Bool.and_eq_true, beq_iff_eq] at hpf
  have hd : d ∈ pre := List.drop_subset i pre (by rw [hdt]; exact List.mem_cons_self d t)
  exact hpre d hd hpf.1.symm

theorem channel_dev_strIndex (s : Str) (h : getVersionChannel s = .Dev) :
    ∃ i, strIndex devSuffix s = some i := by
  unfold getVersionChannel at h
  by_cases hc : strContains s devSuffix = true
  · unfold strContains at hc
    rw [Option.isSome_iff_exists] at hc
    exact hc
  · rw [Bool.not_eq_true] at hc
    rw [hc] at h
    simp only [Bool.false_eq_true, if_false] at h
    split at h <;> simp at h

theorem channel_beta_strIndex (s : Str) (h : getVersionChannel s = .Beta) :
    ∃ i, strIndex betaSuffix s = some i := by
  unfold getVersionChannel at h
  by_cases hd : strContains s devSuffix = true
  · rw [hd] at h
    simp at h
  · rw [Bool.not_eq_true] at hd
    rw [hd] at h
    simp only [Bool.false_eq_true, if_false] at h
    by_cases hb : strContains s betaSuffix = true
    · unfold strContains at hb
      rw [Option.isSome_iff_exists] at hb
      exact hb
    · rw [Bool.not_eq_true] at hb
      rw [hb] at h
      simp at h

theorem take_two_dots (a b rest2 : Str) (i : Nat)
    (hi : a.length + b.length + 2 ≤ i) :
    (a ++ '.' :: (b ++ '.' :: rest2)).take i
      = a ++ '.' :: (b ++ '.' :: rest2.take (i - (a.length + b.length + 2))) := by
  have hassoc : a ++ '.' :: (b ++ '.' :: rest2)
      = (a ++ '.' :: (b ++ ['.'])) ++ rest2 := by
    simp
  have hlen : (a ++ '.' :: (b ++ ['.'])).length = a.length + b.length + 2 := by
    simp
    omega
  rw [hassoc, List.take_append_eq_append_take,
    List.take_of_length_le (by rw [hlen]; omega), hlen]
  simp

theorem splitVersion_decomp_isSome (a b rest2 : Str)
    (ha : a.all isDigitCh = true) (hb : b.all isDigitCh = true) :
    (splitVersion (a ++ '.' :: (b ++ '.' :: rest2))).isSome = true := by
  have hadig : ∀ c ∈ a, isDigitCh c = true := List.all_eq_true.mp ha
  have hbdig : ∀ c ∈ b, isDigitCh c = true := List.all_eq_true.mp hb
  have hadot : ∀ c ∈ a, c ≠ '.' := fun c hc => digitCh_ne_dot c (hadig c hc)
  have hbdot : ∀ c ∈ b, c ≠ '.' := fun c hc => digitCh_ne_dot c (hbdig c hc)
  have hassoc : a ++ '.' :: (b ++ '.' :: rest2)
      = (a ++ '.' :: (b ++ ['.'])) ++ rest2 := by simp
  have hpredash : ∀ c ∈ a ++ '.' :: (b ++ ['.']), c ≠ '-' := by
    intro c hc
    rcases List.mem_append.mp hc with hca | hcb
    · exact digitCh_ne_dash c (hadig c hca)
    · rcases List.mem_cons.mp hcb with rfl | hcb'
      · decide
      · rcases List.mem_append.mp hcb' with hcb2 | hcb3
        · exact digitCh_ne_dash c (hbdig c hcb2)
        · rw [List.mem_singleton] at hcb3
          subst hcb3
          decide
  have hprelen : (a ++ '.' :: (b ++ ['.'])).length = a.length + b.length + 2 := by
    simp
    omega
  unfold splitVersion
  cases hch : getVersionChannel (a ++ '.' :: (b ++ '.' :: rest2)) with
  | Stable =>
    simp only
    rw [splitOnce_append '.' a (b ++ '.' :: rest2) hadot]
    simp only
    rw [splitOnce_append '.' b rest2 hbdot]
    simp
  | Dev =>
    obtain ⟨i, hi⟩ := channel_dev_strIndex _ hch
    have hge : (a ++ '.' :: (b ++ ['.'])).length ≤ i := by
      apply strIndex_ge '-' (str "dev.") (a ++ '.' :: (b ++ ['.'])) rest2 i hpredash
      show strIndex devSuffix ((a ++ '.' :: (b ++ ['.'])) ++ rest2) = some i
      rw [← hassoc]
      exact hi
    simp only [hi]
    rw [take_two_dots a b rest2 i (by rw [hprelen] at hge; omega)]
    rw [splitOnce_append '.' a _ hadot]
    simp only
    rw [splitOnce_append '.' b _ hbdot]
    simp
  | Beta =>
    obtain ⟨i, hi⟩ := channel_beta_strIndex _ hch
    have hge : (a ++ '.' :: (b ++ ['.'])).length ≤ i := by
      apply strIndex_ge '-' (str "beta.") (a ++ '.' :: (b ++ ['.'])) rest2 i hpredash
      show strIndex betaSuffix ((a ++ '.' :: (b ++ ['.'])) ++ rest2) = some i
      rw [← hassoc]
      exact hi
    simp only [hi]
    rw [take_two_dots a b rest2 i (by rw [hprelen] at hge; omega)]
    rw [splitOnce_append '.' a _ hadot]
    simp only
    rw [splitOnce_append '.' b _ hbdot]
    simp

theorem validVersion_decomp (s : Str) (h : validVersion s = true) :
    ∃ a b rest2 : Str, s = a ++ '.' :: (b ++ '.' :: rest2) ∧
      a.all isDigitCh = true ∧ b.all isDigitCh = true := by
  unfold validVersion at h
  cases h1 : splitOnce '.' s with
  | none => rw [h1] at h; simp at h
  | some p =>
    obtain ⟨a, rest⟩ := p
    rw [h1] at h
    simp only at h
    cases h2 : splitOnce '.' rest with
    | none => rw [h2] at h; simp at h
    | some q =>
      obtain ⟨b, rest2⟩ := q
      rw [h2] at h
      simp only [Bool.and_eq_true] at h
      refine ⟨a, b, rest2, ?_, numOK_all_digits a h.1.1.1, numOK_all_digits b h.1.1.2⟩
      rw [splitOnce_eq '.' s a rest h1, splitOnce_eq '.' rest b rest2 h2]

/-- C10: confirmed.  `SplitVersion` (and through it `VersionMatch` and
`VersionLess`) returns normally on every string the version regular
expression accepts, while on the non-grammar input `"1.2"` — fewer than
three dot-separated components — the `s[2]` index of `SplitVersion` is out
of range: a Go runtime panic, modelled as `none`. -/
theorem splitVersionTotalOnGrammar :
    (∀ s : Str, validVersion s = true → (splitVersion s).isSome = true) ∧
    (∀ s t : Str, validVersion s = true → validVersion t = true →
      (versionLess s t).isSome = true ∧ (versionMatch s t).isSome = true) ∧
    splitVersion (str "1.2") = none ∧
    versionLess (str "1.2") (str "1.0.0") = none ∧
    versionMatch (str "1.2") (str "1.0.0") = none := by
  have htot : ∀ s : Str, validVersion s = true → (splitVersion s).isSome = true := by
    intro s h
    obtain ⟨a, b, rest2, hs, ha, hb⟩ := validVersion_decomp s h
    rw [hs]
    exact splitVersion_decomp_isSome a b rest2 ha hb
  refine ⟨htot, ?_, by decide, by decide, by decide⟩
  intro s t hs ht
  obtain ⟨ps, hps⟩ := Option.isSome_iff_exists.mp (htot s hs)
  obtain ⟨pt, hpt⟩ := Option.isSome_iff_exists.mp (htot t ht)
  obtain ⟨as_, bs, cs⟩ := ps
  obtain ⟨at_, bt, ct⟩ := pt
  constructor
  · unfold versionLess
    rw [hps, hpt]
    rfl
  · unfold versionMatch
    rw [hps, hpt]
    rfl

theorem splitVersionTotalOnGrammar_witness :
    (validVersion (str "1.0.0-beta.3") = true ∧
      (splitVersion (str "1.0.0-beta.3")).isSome = true) ∧
    (validVersion (str "2.1.0") = true ∧
      (versionLess (str "1.0.0-beta.3") (str "2.1.0")).isSome = true) :=
  ⟨⟨by decide, splitVersionTotalOnGrammar.1 (str "1.0.0-beta.3") (by decide)⟩,
   ⟨by decide,
    (splitVersionTotalOnGrammar.2.1 (str "1.0.0-beta.3") (str "2.1.0")
       (by decide) (by decide)).1⟩⟩
